import Mathlib

/-!
Shallow embedding of `s27488_2025.py`, a DNA sequence generator and
analyzer.  Strings are modelled as `List Char`, Python floats (whose values
here are always exact results of integer division) as `ℚ`, the
`float('inf')` sentinel as a constructor of a tagged type, the raised
`ValueError` as the `Except.error` case, the process-wide random source as
an explicit argument supplying the draws, and the file system as a map
from path names to file contents.
-/

/-- The DNA alphabet, the Python string literal `'ACGT'`. -/
def dnaBases : List Char := ['A', 'C', 'G', 'T']

/-- `filtered_seq = [nt for nt in sequence if nt in 'ACGT']` (line 52). -/
def filtered_seq (sequence : List Char) : List Char :=
  sequence.filter (fun nt => dnaBases.contains nt)

/-- The percentage dictionary `{nt: ... for nt in 'ACGT'}` built by
`calculate_statistics`: one entry per alphabet symbol. -/
structure Percentages where
  A : ℚ
  C : ℚ
  G : ℚ
  T : ℚ
deriving DecidableEq, Repr

/-- The CG/AT ratio: a finite value `(cg / at) * 100`, or the
`float('inf')` sentinel used when `at == 0`. -/
inductive CGRatio where
  | finite (q : ℚ)
  | posInf
deriving DecidableEq, Repr

/-- `calculate_statistics(sequence)` (lines 48–70): filter the sequence to
the DNA alphabet, raise `ValueError` when nothing is left, otherwise return
the per-symbol percentages and the CG/AT ratio.  `counts.get(nt, 0)` of the
`Counter` is `List.count`. -/
def calculate_statistics (sequence : List Char) : Except String (Percentages × CGRatio) :=
  if filtered_seq sequence = [] then
    Except.error "No valid DNA nucleotides in sequence!"
  else
    let total : ℚ := ((filtered_seq sequence).length : ℚ)
    let percentages : Percentages :=
      { A := (((filtered_seq sequence).count 'A' : ℚ) / total) * 100
        C := (((filtered_seq sequence).count 'C' : ℚ) / total) * 100
        G := (((filtered_seq sequence).count 'G' : ℚ) / total) * 100
        T := (((filtered_seq sequence).count 'T' : ℚ) / total) * 100 }
    let cg : ℕ := (filtered_seq sequence).count 'C' + (filtered_seq sequence).count 'G'
    let at_count : ℕ := (filtered_seq sequence).count 'A' + (filtered_seq sequence).count 'T'
    let cg_ratio : CGRatio :=
      if at_count ≠ 0 then CGRatio.finite (((cg : ℚ) / (at_count : ℚ)) * 100)
      else CGRatio.posInf
    Except.ok (percentages, cg_ratio)

/-- The choice of one base, `random.choices('ACGT', ...)` picking index `i`
of the alphabet.  The weights `[0.3, 0.2, 0.2, 0.3]` bias which index is
drawn but never produce anything outside the alphabet, so the draws are
modelled as arbitrary indices. -/
def pickBase (i : Fin 4) : Char := dnaBases.get i

/-- `generate_dna_sequence(length)` (lines 24–27): one weighted draw per
position.  `randomPicks` stands for the reseeded global random source: the
`i`-th draw of `random.choices` is `randomPicks i`. -/
def generate_dna_sequence (length : ℕ) (randomPicks : ℕ → Fin 4) : List Char :=
  (List.range length).map (fun i => pickBase (randomPicks i))

/-- `insert_name(sequence, name)` (lines 30–33): splice `name` at
`position`, which stands for the draw `random.randint(0, len(sequence))`;
`sequence[:position] + name + sequence[position:]`. -/
def insert_name (sequence name : List Char) (position : ℕ) : List Char :=
  sequence.take position ++ name ++ sequence.drop position

/-- The loop `for i in range(0, len(sequence), 80)` of `save_to_fasta`
(lines 93–94): the sequence cut into consecutive chunks
`sequence[i:i + 80]`, one written line per chunk. -/
def wrapLines (s : List Char) : List (List Char) :=
  if h : s = [] then []
  else s.take 80 :: wrapLines (s.drop 80)
termination_by s.length
decreasing_by
  simp only [List.length_drop]
  exact Nat.sub_lt (List.length_pos.mpr h) (by omega)

/-- The full content written by `save_to_fasta` (lines 89–94) as a list of
lines: the header line `>{header}` followed by the wrapped sequence. -/
def fasta_content (header sequence : List Char) : List (List Char) :=
  ('>' :: header) :: wrapLines sequence

/-- `str.rfind` as used by `os.path.splitext`: index of the last occurrence
of `c`, `-1` when absent. -/
def rfind (p : List Char) (c : Char) : Int :=
  match p.reverse.findIdx? (fun x => x == c) with
  | some i => (p.length : Int) - 1 - (i : Int)
  | none => -1

/-- `os.path.splitext` (posix flavour): split at the last dot provided it
lies after the last path separator and the base name does not consist of
leading dots only. -/
def splitext (p : List Char) : List Char × List Char :=
  let sepIndex := rfind p '/'
  let dotIndex := rfind p '.'
  if sepIndex < dotIndex then
    let filenameIndex := (sepIndex + 1).toNat
    if ((p.drop filenameIndex).take (dotIndex.toNat - filenameIndex)).any (fun ch => ch != '.') then
      (p.take dotIndex.toNat, p.drop dotIndex.toNat)
    else (p, [])
  else (p, [])

/-- `backup_name = f"{base}_backup{ext}"` (lines 85–86). -/
def backup_name (filename : List Char) : List Char :=
  (splitext filename).1 ++ ("_backup".toList) ++ (splitext filename).2

/-- The file system, a map from path names to file contents (content is a
list of lines). -/
def FS : Type := List Char → Option (List (List Char))

/-- `save_to_fasta(filename, header, sequence)` (lines 79–94) acting on the
file-system map: when the destination exists, `os.replace` moves it to the
backup path (overwriting any previous backup), then the new content is
written at the destination. -/
def save_to_fasta (fs : FS) (filename header sequence : List Char) : FS :=
  let fs1 : FS :=
    if (fs filename).isSome then
      fun p =>
        if p = backup_name filename then fs filename
        else if p = filename then none
        else fs p
    else fs
  fun p => if p = filename then some (fasta_content header sequence) else fs1 p

/-- The whitespace characters stripped by Python `int` before parsing
(ASCII fragment of `str.strip`). -/
def isPyWhitespace (c : Char) : Bool :=
  c == ' ' || c == '\t' || c == '\n' || c == '\r' || c == Char.ofNat 11 || c == Char.ofNat 12

/-- Strip leading and trailing whitespace, as Python `int` does. -/
def stripWS (l : List Char) : List Char :=
  ((l.dropWhile isPyWhitespace).reverse.dropWhile isPyWhitespace).reverse

/-- Python digit groups may not contain two consecutive underscores. -/
def noDoubleUnderscore : List Char → Bool
  | a :: b :: rest => !(a == '_' && b == '_') && noDoubleUnderscore (b :: rest)
  | _ => true

/-- A valid Python unsigned digit group: non-empty, digits possibly
separated by single underscores, starting and ending with a digit. -/
def validDigitGroup (l : List Char) : Bool :=
  (match l.head? with | some c => c.isDigit | none => false) &&
  (match l.getLast? with | some c => c.isDigit | none => false) &&
  l.all (fun c => c.isDigit || c == '_') &&
  noDoubleUnderscore l

/-- Numeric value of a digit group, skipping underscores. -/
def digitsVal (l : List Char) : ℕ :=
  l.foldl (fun acc c => if c == '_' then acc else acc * 10 + (c.toNat - '0'.toNat)) 0

/-- Python `int(s)` on a string (line 100): `some` the parsed value, `none`
when `int` raises `ValueError`. -/
def pythonInt (s : List Char) : Option Int :=
  match stripWS s with
  | '+' :: rest => if validDigitGroup rest then some ((digitsVal rest : ℕ) : Int) else none
  | '-' :: rest => if validDigitGroup rest then some (-((digitsVal rest : ℕ) : Int)) else none
  | t => if validDigitGroup t then some ((digitsVal t : ℕ) : Int) else none

/-- The stream an observable message is printed to. -/
inductive OutStream where
  | stdout
  | stderr
deriving DecidableEq, Repr

/-- Observable outcome of the validation step: either the parsed length, or
process termination with a message on one stream and an exit code. -/
inductive VResult where
  | ok (length : Int)
  | exited (stream : OutStream) (message : List Char) (code : ℕ)
deriving DecidableEq, Repr

/-- The message of line 105. -/
def lengthErrorMsg : List Char :=
  "Error: Please enter a valid positive integer for sequence length".toList

/-- `validate_input(length_str)` (lines 97–106): parse with `int`, raise on
a non-positive value; any `ValueError` is caught, the message is printed by
a bare `print` (standard output) and `sys.exit(1)` terminates the
process. -/
def validate_input (length_str : List Char) : VResult :=
  match pythonInt length_str with
  | some length => if length ≤ 0 then VResult.exited OutStream.stdout lengthErrorMsg 1
                   else VResult.ok length
  | none => VResult.exited OutStream.stdout lengthErrorMsg 1

/-- The generic handler of `main` (lines 136–138): `print(f"\nError: ...",
file=sys.stderr)` followed by `sys.exit(1)`. -/
def main_error_exit (msg : List Char) : VResult :=
  VResult.exited OutStream.stderr ('\n' :: ("Error: ".toList ++ msg)) 1

/-- `True` exactly when `int(s)` succeeds with a positive value, i.e. when
`validate_input` returns normally. -/
def parsesPositive (s : List Char) : Bool :=
  match pythonInt s with
  | some n => decide (0 < n)
  | none => false

/-! ### Helper lemmas about the statistics core -/

/-- Every character of the filtered subsequence is one of the 4 bases. -/
lemma mem_filtered_seq (s : List Char) :
    ∀ c ∈ filtered_seq s, c = 'A' ∨ c = 'C' ∨ c = 'G' ∨ c = 'T' := by
  intro c hc
  have h := (List.mem_filter.mp hc).2
  simp [dnaBases] at h
  tauto

/-- On a list of alphabet characters the four per-symbol counts add up to
the length. -/
lemma count_ACGT_eq_length (l : List Char)
    (h : ∀ c ∈ l, c = 'A' ∨ c = 'C' ∨ c = 'G' ∨ c = 'T') :
    l.count 'A' + l.count 'C' + l.count 'G' + l.count 'T' = l.length := by
  induction l with
  | nil => rfl
  | cons a t ih =>
    have ha := h a (List.mem_cons_self a t)
    have ih' := ih (fun c hc => h c (List.mem_cons_of_mem a hc))
    rcases ha with rfl | rfl | rfl | rfl <;> simp [List.count_cons] <;> omega

/-- Claim C1: on any input whose filtered subsequence is non-empty,
`calculate_statistics` returns the percentage `count(symbol) / total * 100`
for each of the 4 symbols and the ratio `(count C + count G) / (count A +
count T) * 100`, with positive infinity as the ratio when
`count A + count T` is zero; in particular `"AAAA"` yields
`{A:100, C:0, G:0, T:0}` with ratio `0` and `"CCGG"` yields ratio
`+infinity`. -/
theorem calculate_statistics_spec (s : List Char) (h : filtered_seq s ≠ []) :
    calculate_statistics s = Except.ok
      ({ A := (((filtered_seq s).count 'A' : ℚ) / ((filtered_seq s).length : ℚ)) * 100
         C := (((filtered_seq s).count 'C' : ℚ) / ((filtered_seq s).length : ℚ)) * 100
         G := (((filtered_seq s).count 'G' : ℚ) / ((filtered_seq s).length : ℚ)) * 100
         T := (((filtered_seq s).count 'T' : ℚ) / ((filtered_seq s).length : ℚ)) * 100 },
       if (filtered_seq s).count 'A' + (filtered_seq s).count 'T' ≠ 0 then
         CGRatio.finite
           (((((filtered_seq s).count 'C' + (filtered_seq s).count 'G' : ℕ) : ℚ) /
             (((filtered_seq s).count 'A' + (filtered_seq s).count 'T' : ℕ) : ℚ)) * 100)
       else CGRatio.posInf) ∧
    calculate_statistics ("AAAA".toList) =
      Except.ok (⟨100, 0, 0, 0⟩, CGRatio.finite 0) ∧
    (∃ p : Percentages, calculate_statistics ("CCGG".toList) =
      Except.ok (p, CGRatio.posInf)) := by
  refine ⟨?_, ?_, ?_⟩
  · unfold calculate_statistics
    rw [if_neg h]
  · have hA : filtered_seq ("AAAA".toList) = ['A', 'A', 'A', 'A'] := by decide
    unfold calculate_statistics
    rw [hA, if_neg (by decide : ¬(['A', 'A', 'A', 'A'] : List Char) = [])]
    norm_num [(by decide : (['A', 'A', 'A', 'A'] : List Char).count 'A' = 4),
      (by decide : (['A', 'A', 'A', 'A'] : List Char).count 'C' = 0),
      (by decide : (['A', 'A', 'A', 'A'] : List Char).count 'G' = 0),
      (by decide : (['A', 'A', 'A', 'A'] : List Char).count 'T' = 0)]
  · have hC : filtered_seq ("CCGG".toList) = ['C', 'C', 'G', 'G'] := by decide
    refine ⟨⟨0, 50, 50, 0⟩, ?_⟩
    unfold calculate_statistics
    rw [hC, if_neg (by decide : ¬(['C', 'C', 'G', 'G'] : List Char) = [])]
    norm_num [(by decide : (['C', 'C', 'G', 'G'] : List Char).count 'A' = 0),
      (by decide : (['C', 'C', 'G', 'G'] : List Char).count 'C' = 2),
      (by decide : (['C', 'C', 'G', 'G'] : List Char).count 'G' = 2),
      (by decide : (['C', 'C', 'G', 'G'] : List Char).count 'T' = 0)]

/-- Witness for C1 at the concrete input `"AAAA"`. -/
theorem calculate_statistics_spec_witness :
    filtered_seq ("AAAA".toList) ≠ [] ∧
    calculate_statistics ("AAAA".toList) =
      Except.ok (⟨100, 0, 0, 0⟩, CGRatio.finite 0) :=
  ⟨by decide, (calculate_statistics_spec ("AAAA".toList) (by decide)).2.1⟩

/-- Claim C2: whenever the input contains at least one alphabet character,
the four returned percentages sum to exactly `100` (over exact rational
arithmetic). -/
theorem calculate_statistics_percentages_sum (s : List Char) (h : filtered_seq s ≠ []) :
    ∃ p r, calculate_statistics s = Except.ok (p, r) ∧ p.A + p.C + p.G + p.T = 100 := by
  unfold calculate_statistics
  rw [if_neg h]
  refine ⟨_, _, rfl, ?_⟩
  have hcount := count_ACGT_eq_length (filtered_seq s) (mem_filtered_seq s)
  have hlen : 0 < (filtered_seq s).length := List.length_pos.mpr h
  have ht : ((filtered_seq s).length : ℚ) ≠ 0 := by
    exact_mod_cast Nat.pos_iff_ne_zero.mp hlen
  have hcast : ((filtered_seq s).count 'A' : ℚ) + ((filtered_seq s).count 'C' : ℚ) +
      ((filtered_seq s).count 'G' : ℚ) + ((filtered_seq s).count 'T' : ℚ) =
      ((filtered_seq s).length : ℚ) := by
    exact_mod_cast congrArg (Nat.cast : ℕ → ℚ) hcount
  field_simp
  linarith [hcast]

/-- Witness for C2 at the concrete input `"ACGT"`. -/
theorem calculate_statistics_percentages_sum_witness :
    filtered_seq ("ACGT".toList) ≠ [] ∧
    ∃ p r, calculate_statistics ("ACGT".toList) = Except.ok (p, r) ∧
      p.A + p.C + p.G + p.T = 100 :=
  ⟨by decide, calculate_statistics_percentages_sum ("ACGT".toList) (by decide)⟩

/-- Claim C3: `calculate_statistics` fails, and fails with the
empty-composition error, exactly when the input has no character from the
alphabet; on every other input it returns a result. -/
theorem calculate_statistics_empty_error_iff (s : List Char) :
    (calculate_statistics s = Except.error "No valid DNA nucleotides in sequence!" ↔
      filtered_seq s = []) ∧
    (filtered_seq s ≠ [] → ∃ p r, calculate_statistics s = Except.ok (p, r)) ∧
    (∀ e, calculate_statistics s = Except.error e →
      e = "No valid DNA nucleotides in sequence!") := by
  by_cases hc : filtered_seq s = [] <;> simp [calculate_statistics, hc]

/-- Witness for C3 at the concrete input `"xyz"`. -/
theorem calculate_statistics_empty_error_iff_witness :
    calculate_statistics ("xyz".toList) =
      Except.error "No valid DNA nucleotides in sequence!" :=
  (calculate_statistics_empty_error_iff ("xyz".toList)).1.mpr (by decide)

/-- Claim C6: appending the junk string `"xyz123"` (none of whose
characters is exactly one of the 4 bases) changes nothing in the result of
`calculate_statistics`: filtering is case-sensitive and drops every
non-alphabet character. -/
theorem calculate_statistics_junk_append (s : List Char) :
    calculate_statistics (s ++ ("xyz123".toList)) = calculate_statistics s := by
  have hf : filtered_seq (s ++ ("xyz123".toList)) = filtered_seq s := by
    unfold filtered_seq
    rw [List.filter_append]
    have : ("xyz123".toList).filter (fun nt => dnaBases.contains nt) = [] := by decide
    rw [this, List.append_nil]
  unfold calculate_statistics
  rw [hf]

/-- Claim C10: `insert_name` does not enforce the non-empty-token
precondition: splicing the empty token returns the sequence unchanged, for
every insertion position. -/
theorem insert_name_empty_token (S : List Char) (position : ℕ) :
    insert_name S [] position = S := by
  simp [insert_name]

/-- Claim C4: for every positive length and every behaviour of the random
source, the generated sequence has exactly the requested length and every
character belongs to the alphabet. -/
theorem generate_dna_sequence_spec (length : ℕ) (randomPicks : ℕ → Fin 4)
    (h : 0 < length) :
    (generate_dna_sequence length randomPicks).length = length ∧
    ∀ c ∈ generate_dna_sequence length randomPicks, c ∈ dnaBases := by
  constructor
  · simp [generate_dna_sequence]
  · intro c hc
    simp only [generate_dna_sequence, List.mem_map] at hc
    obtain ⟨i, -, rfl⟩ := hc
    exact List.get_mem dnaBases _ _

/-- Witness for C4 at length `2` and the constant random source. -/
theorem generate_dna_sequence_spec_witness :
    0 < 2 ∧
    ((generate_dna_sequence 2 (fun _ => (0 : Fin 4))).length = 2 ∧
      ∀ c ∈ generate_dna_sequence 2 (fun _ => (0 : Fin 4)), c ∈ dnaBases) :=
  ⟨by decide, generate_dna_sequence_spec 2 (fun _ => (0 : Fin 4)) (by decide)⟩

/-- Claim C5: for every sequence `S`, non-empty token `T` and insertion
index `position ≤ len S`, the splice has length `len S + len T` and
deleting `len T` characters starting at `position` from it reconstructs
`S` exactly. -/
theorem insert_name_spec (S T : List Char) (position : ℕ)
    (hT : T ≠ []) (hpos : position ≤ S.length) :
    (insert_name S T position).length = S.length + T.length ∧
    (insert_name S T position).take position ++
      (insert_name S T position).drop (position + T.length) = S := by
  have htake : (S.take position).length = position := by
    simp [List.length_take, Nat.min_eq_left hpos]
  constructor
  · simp only [insert_name, List.length_append, List.length_take, List.length_drop]
    omega
  · have e1 : (insert_name S T position).take position = S.take position := by
      simp only [insert_name]
      rw [List.append_assoc]
      exact List.take_left' htake
    have e2 : (insert_name S T position).drop (position + T.length) = S.drop position := by
      simp only [insert_name]
      exact List.drop_left' (by simp [htake])
    rw [e1, e2, List.take_append_drop]

/-- Witness for C5 at `S = "ACG"`, `T = "XY"`, index `1`. -/
theorem insert_name_spec_witness :
    (("XY".toList ≠ []) ∧ 1 ≤ ("ACG".toList).length) ∧
    ((insert_name ("ACG".toList) ("XY".toList) 1).length =
        ("ACG".toList).length + ("XY".toList).length ∧
      (insert_name ("ACG".toList) ("XY".toList) 1).take 1 ++
        (insert_name ("ACG".toList) ("XY".toList) 1).drop (1 + ("XY".toList).length) =
        "ACG".toList) :=
  ⟨⟨by decide, by decide⟩,
    insert_name_spec ("ACG".toList) ("XY".toList) 1 (by decide) (by decide)⟩

/-! ### Helper lemmas about line wrapping -/

/-- Unfolding of `wrapLines` on a non-empty sequence. -/
lemma wrapLines_cons (s : List Char) (h : s ≠ []) :
    wrapLines s = s.take 80 :: wrapLines (s.drop 80) := by
  rw [wrapLines]
  simp [h]

/-- `wrapLines` produces no lines only for the empty sequence. -/
lemma wrapLines_eq_nil_iff (s : List Char) : wrapLines s = [] ↔ s = [] := by
  constructor
  · intro hw
    by_contra hs
    rw [wrapLines_cons s hs] at hw
    exact List.noConfusion hw
  · rintro rfl
    rw [wrapLines]
    simp

/-- Concatenating the wrapped lines gives back the sequence. -/
lemma wrapLines_flatten (s : List Char) : (wrapLines s).flatten = s := by
  have key : ∀ n (t : List Char), t.length ≤ n → (wrapLines t).flatten = t := by
    intro n
    induction n with
    | zero =>
      intro t ht
      have : t = [] := List.eq_nil_of_length_eq_zero (Nat.le_zero.mp ht)
      subst this
      rw [wrapLines]
      simp
    | succ n ih =>
      intro t ht
      by_cases hte : t = []
      · subst hte
        rw [wrapLines]
        simp
      · rw [wrapLines_cons t hte]
        have hlen : (t.drop 80).length ≤ n := by
          have h1 : 0 < t.length := List.length_pos.mpr hte
          simp only [List.length_drop]
          omega
        rw [List.flatten_cons, ih (t.drop 80) hlen, List.take_append_drop]
  exact key s.length s le_rfl

/-- Every wrapped line is non-empty and at most 80 characters long. -/
lemma wrapLines_length_le (s : List Char) :
    ∀ l ∈ wrapLines s, 0 < l.length ∧ l.length ≤ 80 := by
  have key : ∀ n (t : List Char), t.length ≤ n →
      ∀ l ∈ wrapLines t, 0 < l.length ∧ l.length ≤ 80 := by
    intro n
    induction n with
    | zero =>
      intro t ht l hl
      have : t = [] := List.eq_nil_of_length_eq_zero (Nat.le_zero.mp ht)
      subst this
      rw [wrapLines] at hl
      simp at hl
    | succ n ih =>
      intro t ht l hl
      by_cases hte : t = []
      · subst hte
        rw [wrapLines] at hl
        simp at hl
      · rw [wrapLines_cons t hte] at hl
        rcases List.mem_cons.mp hl with rfl | hl'
        · have h1 : 0 < t.length := List.length_pos.mpr hte
          simp only [List.length_take]
          omega
        · have hlen : (t.drop 80).length ≤ n := by
            have h1 : 0 < t.length := List.length_pos.mpr hte
            simp only [List.length_drop]
            omega
          exact ih (t.drop 80) hlen l hl'
  exact key s.length s le_rfl

/-- Every wrapped line except possibly the last is exactly 80 characters
long. -/
lemma wrapLines_dropLast_length (s : List Char) :
    ∀ l ∈ (wrapLines s).dropLast, l.length = 80 := by
  have key : ∀ n (t : List Char), t.length ≤ n →
      ∀ l ∈ (wrapLines t).dropLast, l.length = 80 := by
    intro n
    induction n with
    | zero =>
      intro t ht l hl
      have : t = [] := List.eq_nil_of_length_eq_zero (Nat.le_zero.mp ht)
      subst this
      rw [wrapLines] at hl
      simp at hl
    | succ n ih =>
      intro t ht l hl
      by_cases hte : t = []
      · subst hte
        rw [wrapLines] at hl
        simp at hl
      · rw [wrapLines_cons t hte] at hl
        by_cases hd : t.drop 80 = []
        · rw [hd, (wrapLines_eq_nil_iff []).mpr rfl] at hl
          simp at hl
        · have hwd : wrapLines (t.drop 80) ≠ [] := by
            rw [Ne, wrapLines_eq_nil_iff]
            exact hd
          rw [List.dropLast_cons_of_ne_nil hwd] at hl
          rcases List.mem_cons.mp hl with rfl | hl'
          · have h80 : 80 < t.length := by
              by_contra hc
              exact hd (List.drop_eq_nil_of_le (by omega))
            simp only [List.length_take]
            omega
          · have hlen : (t.drop 80).length ≤ n := by
              have h1 : 0 < t.length := List.length_pos.mpr hte
              simp only [List.length_drop]
              omega
            exact ih (t.drop 80) hlen l hl'
  exact key s.length s le_rfl

/-- Claim C7: the content written by `save_to_fasta` is one header line
followed by the sequence wrapped into lines of exactly 80 characters, only
the final line possibly shorter, and concatenating all non-header lines
reconstructs the sequence exactly. -/
theorem fasta_content_roundtrip (header sequence : List Char) :
    (fasta_content header sequence).head? = some ('>' :: header) ∧
    ((fasta_content header sequence).tail).flatten = sequence ∧
    (∀ l ∈ ((fasta_content header sequence).tail).dropLast, l.length = 80) ∧
    (∀ l ∈ (fasta_content header sequence).tail, 0 < l.length ∧ l.length ≤ 80) := by
  refine ⟨rfl, ?_, ?_, ?_⟩
  · exact wrapLines_flatten sequence
  · exact wrapLines_dropLast_length sequence
  · exact wrapLines_length_le sequence

/-! ### Helper lemmas about the backup path -/

/-- `splitext` is a split of the path: base and extension concatenate back
to it. -/
lemma splitext_append (p : List Char) : (splitext p).1 ++ (splitext p).2 = p := by
  unfold splitext
  dsimp only
  split
  · split
    · exact List.take_append_drop _ p
    · exact List.append_nil p
  · exact List.append_nil p

/-- The backup path differs from the destination path (it is 7 characters
longer). -/
lemma backup_name_ne (filename : List Char) : backup_name filename ≠ filename := by
  intro h
  have h1 := congrArg List.length h
  have h2 := congrArg List.length (splitext_append filename)
  have h3 : ("_backup".toList).length = 7 := by decide
  simp only [backup_name, List.length_append] at h1 h2
  omega

/-- After a write the destination holds the new content. -/
lemma save_to_fasta_self (fs : FS) (filename header sequence : List Char) :
    save_to_fasta fs filename header sequence filename =
      some (fasta_content header sequence) := by
  simp [save_to_fasta]

/-- When the destination existed, after a write the backup path holds its
prior content. -/
lemma save_to_fasta_backup_of_isSome (fs : FS) (filename header sequence : List Char)
    (hex : (fs filename).isSome) :
    save_to_fasta fs filename header sequence (backup_name filename) = fs filename := by
  simp [save_to_fasta, backup_name_ne filename, hex]

/-- Paths other than the destination and the backup are untouched. -/
lemma save_to_fasta_other (fs : FS) (filename header sequence p : List Char)
    (hp1 : p ≠ filename) (hp2 : p ≠ backup_name filename) :
    save_to_fasta fs filename header sequence p = fs p := by
  unfold save_to_fasta
  rw [if_neg hp1]
  split
  · simp only [if_neg hp2, if_neg hp1]
  · rfl

/-- Claim C8: with the file system as a map from paths to contents, an
existing destination is first renamed to the sibling backup path, so after
a second write to the same path the first write's content sits at the
backup path, and a third write overwrites the backup (no chaining) while
other paths are untouched. -/
theorem save_to_fasta_backup_spec (fs : FS) (filename h1 s1 h2 s2 h3 s3 : List Char) :
    (∀ c, fs filename = some c →
      save_to_fasta fs filename h1 s1 (backup_name filename) = some c) ∧
    save_to_fasta (save_to_fasta fs filename h1 s1) filename h2 s2
        (backup_name filename) = some (fasta_content h1 s1) ∧
    save_to_fasta (save_to_fasta fs filename h1 s1) filename h2 s2 filename =
      some (fasta_content h2 s2) ∧
    save_to_fasta (save_to_fasta (save_to_fasta fs filename h1 s1) filename h2 s2)
        filename h3 s3 (backup_name filename) = some (fasta_content h2 s2) ∧
    (∀ p, p ≠ filename → p ≠ backup_name filename →
      save_to_fasta (save_to_fasta fs filename h1 s1) filename h2 s2 p = fs p) := by
  refine ⟨?_, ?_, ?_, ?_, ?_⟩
  · intro c hc
    rw [save_to_fasta_backup_of_isSome fs filename h1 s1 (by rw [hc]; rfl), hc]
  · rw [save_to_fasta_backup_of_isSome _ filename h2 s2
      (by rw [save_to_fasta_self]; rfl)]
    exact save_to_fasta_self fs filename h1 s1
  · exact save_to_fasta_self _ filename h2 s2
  · rw [save_to_fasta_backup_of_isSome _ filename h3 s3
      (by rw [save_to_fasta_self]; rfl)]
    exact save_to_fasta_self _ filename h2 s2
  · intro p hp1 hp2
    rw [save_to_fasta_other _ filename h2 s2 p hp1 hp2,
      save_to_fasta_other fs filename h1 s1 p hp1 hp2]

/-- Witness for C8: a concrete one-file file system, destination
`"x.fasta"`; after the write its old content is at the backup path. -/
theorem save_to_fasta_backup_spec_witness :
    save_to_fasta
        (fun p => if p = ("x.fasta".toList) then some [['o', 'l', 'd']] else none)
        ("x.fasta".toList) ['h'] ['C'] (backup_name ("x.fasta".toList)) =
      some [['o', 'l', 'd']] :=
  (save_to_fasta_backup_spec
      (fun p => if p = ("x.fasta".toList) then some [['o', 'l', 'd']] else none)
      ("x.fasta".toList) ['h'] ['C'] ['h'] ['C'] ['h'] ['C']).1
    [['o', 'l', 'd']] (by simp)

/-- Counterexample to C9: on the unparseable length input `"abc"`,
`validate_input` prints its error message by a bare `print`, i.e. to
standard output, not to the error stream, before exiting with status 1. -/
theorem validate_input_error_on_stdout :
    validate_input ("abc".toList) =
      VResult.exited OutStream.stdout lengthErrorMsg 1 ∧
    OutStream.stdout ≠ OutStream.stderr := by
  constructor
  · rfl
  · decide

/-- Amended C9: every fatal error exits the process with the non-zero
status 1, and a message is printed; however the length-validation message
goes to standard output (bare `print` on line 105), while the generic
handler of `main` prints to the error stream.  Whenever the length parses
to a positive value, `validate_input` returns it normally. -/
theorem validate_input_fatal_amended :
    (∀ s : List Char, parsesPositive s = false →
      validate_input s = VResult.exited OutStream.stdout lengthErrorMsg 1) ∧
    (∀ s : List Char, ∀ n : Int, pythonInt s = some n → 0 < n →
      validate_input s = VResult.ok n) ∧
    (∀ msg : List Char, main_error_exit msg =
      VResult.exited OutStream.stderr ('\n' :: ("Error: ".toList ++ msg)) 1) := by
  refine ⟨?_, ?_, fun msg => rfl⟩
  · intro s hs
    unfold validate_input
    unfold parsesPositive at hs
    cases hp : pythonInt s with
    | none => rfl
    | some n =>
      rw [hp] at hs
      simp only [decide_eq_false_iff_not, Int.not_lt] at hs
      dsimp only
      rw [if_pos hs]
  · intro s n hp hn
    unfold validate_input
    rw [hp]
    dsimp only
    rw [if_neg (by omega)]

/-- Witness for the amended C9 at the concrete input `"abc"`. -/
theorem validate_input_fatal_amended_witness :
    parsesPositive ("abc".toList) = false ∧
    validate_input ("abc".toList) =
      VResult.exited OutStream.stdout lengthErrorMsg 1 :=
  ⟨by decide, validate_input_fatal_amended.1 ("abc".toList) (by decide)⟩
